import Mathlib

/-!
Verification of the classical Shor-simulation engine (`simulShore.py`).

The development shallowly embeds the two functions of the classical engine:

* `find_order` (source lines 5-27): brute-force multiplicative order finding,
  iterating `r = 1 .. max_order` while maintaining `result = (result * a) % n`.
* `shors_algorithm` (source lines 29-165): even check, perfect-power check,
  coprime-base sampling loop, order finding, parity gate, candidate
  derivation `x = a^(r/2) mod n`, degenerate check, gcd factor extraction,
  and self-recursion on the three retry branches.

Randomness (`random.randint(2, n - 1)`, one draw per sampling iteration) is
embedded as an explicit stream `d : Nat -> Nat` of draws; draw `i` of a call
is `d i`, and each recursive retry consumes exactly `max_attempts` draws
(the sampling loop runs all `max_attempts` iterations before any retry can
happen, because a retry is only reachable after the loop falls through), so
the recursive call sees the stream shifted by `max_attempts`.  The unbounded
self-recursion of the source is embedded with explicit fuel: the result type
`Option (Option (Nat × Nat))` reads `none` = fuel exhausted (the source
would still be recursing), `some none` = the source returned `None`,
`some (some (p, q))` = the source returned the pair `(p, q)`.

Python integers are arbitrary-precision; all quantities handled by the code
are nonnegative, so they are embedded as `Nat`, except the two gcd
arguments `x - 1` and `x + 1` (source lines 136-137), which are taken in
`Int` exactly as Python does (`math.gcd` of possibly negative arguments is
`Int.gcd`, the gcd of the absolute values).

The only idealization concerns the two floating-point expressions of the
perfect-power check (source lines 60-61): `int(math.log2(n))` is embedded
as the exact `Nat.log 2 n`, and `round(n ** (1 / k))` as the integer
nearest to the exact real k-th root of `n`.  A tie (real root exactly
halfway between integers) is impossible, because `2^k * n` is even while
`(2*a + 1)^k` is odd, so the embedded rounding is unambiguous.
-/

/-- Loop of `find_order` (source lines 21-27): `result` is the running
value, `r` the current exponent, `steps` the remaining iterations of
`for r in range(1, max_order + 1)`.  Each step first updates
`result = (result * a) % n` and then compares it with 1. -/
def findOrderGo (a n : Nat) : Nat → Nat → Nat → Option Nat
  | _, _, 0 => none
  | result, r, steps + 1 =>
    if (result * a) % n = 1 then some r
    else findOrderGo a n ((result * a) % n) (r + 1) steps

/-- Embedding of `find_order(a, n, max_order=None)` (source lines 5-27).
The `Option Nat` argument models the Python default `None`, replaced by
`n` at entry (source lines 18-19). -/
def find_order (a n : Nat) (max_order : Option Nat) : Option Nat :=
  findOrderGo a n 1 1 (max_order.getD n)

/-- One modular-multiplication step preserves the invariant that the
running value is a power of `a` modulo `n`. -/
lemma mod_mul_step (a n x j : Nat) (h : x % n = a ^ j % n) :
    (x % n * a) % n = a ^ (j + 1) % n := by
  have hmm : ∀ y : Nat, y % n % n = y % n := fun y => Nat.mod_mod_of_dvd y (dvd_refl n)
  rw [Nat.mul_mod, hmm, h, ← Nat.mul_mod, ← pow_succ]

/-- Characterization of the loop of `find_order`: started at exponent
`j + 1` with a running value `res` whose next update equals
`a ^ (j+1) % n`, it returns `some s` exactly when `s` is the first
exponent past `j`, within the remaining budget, whose power is 1 mod `n`. -/
lemma findOrderGo_some_iff (a n : Nat) :
    ∀ (steps j res s : Nat), (res * a) % n = a ^ (j + 1) % n →
      (findOrderGo a n res (j + 1) steps = some s ↔
        (j + 1 ≤ s ∧ s ≤ j + steps ∧ a ^ s % n = 1 ∧
          ∀ k, k < s → j < k → a ^ k % n ≠ 1)) := by
  intro steps
  induction steps with
  | zero =>
    intro j res s _
    constructor
    · intro h
      exact absurd h (by simp [findOrderGo])
    · rintro ⟨h1, h2, -, -⟩
      exfalso
      omega
  | succ st ih =>
    intro j res s hres
    simp only [findOrderGo, hres]
    by_cases h1 : a ^ (j + 1) % n = 1
    · rw [if_pos h1]
      constructor
      · intro h
        have hs : s = j + 1 := by
          have := Option.some.inj h
          omega
        subst hs
        exact ⟨le_refl _, by omega, h1, fun k hk1 hk2 => by omega⟩
      · rintro ⟨hs1, hs2, hs3, hmin⟩
        have hs : s = j + 1 := by
          by_contra hne
          have hlt : j + 1 < s := by omega
          exact hmin (j + 1) hlt (by omega) h1
        rw [hs]
    · rw [if_neg h1]
      have hres' : (a ^ (j + 1) % n * a) % n = a ^ (j + 1 + 1) % n :=
        mod_mul_step a n (a ^ (j + 1)) (j + 1) rfl
      rw [show j + 1 + 1 = (j + 1) + 1 from rfl]
      rw [ih (j + 1) (a ^ (j + 1) % n) s hres']
      constructor
      · rintro ⟨g1, g2, g3, g4⟩
        refine ⟨by omega, by omega, g3, ?_⟩
        intro k hk1 hk2
        rcases Nat.eq_or_lt_of_le (by omega : j + 1 ≤ k) with h | h
        · rw [← h]
          exact h1
        · exact g4 k hk1 h
      · rintro ⟨g1, g2, g3, g4⟩
        have hne : s ≠ j + 1 := fun h => h1 (h ▸ g3)
        refine ⟨by omega, by omega, g3, ?_⟩
        intro k hk1 hk2
        exact g4 k hk1 (by omega)

/-- Characterization of the loop of `find_order` returning `none`: no
exponent in the remaining window has power 1 mod `n`. -/
lemma findOrderGo_none_iff (a n : Nat) :
    ∀ (steps j res : Nat), (res * a) % n = a ^ (j + 1) % n →
      (findOrderGo a n res (j + 1) steps = none ↔
        ∀ k, k ≤ j + steps → j < k → a ^ k % n ≠ 1) := by
  intro steps
  induction steps with
  | zero =>
    intro j res _
    simp only [findOrderGo]
    constructor
    · intro _ k hk1 hk2
      exfalso
      omega
    · intro _
      trivial
  | succ st ih =>
    intro j res hres
    simp only [findOrderGo, hres]
    by_cases h1 : a ^ (j + 1) % n = 1
    · rw [if_pos h1]
      constructor
      · intro h
        exact absurd h (by simp)
      · intro h
        exact absurd h1 (h (j + 1) (by omega) (by omega))
    · rw [if_neg h1]
      have hres' : (a ^ (j + 1) % n * a) % n = a ^ (j + 1 + 1) % n :=
        mod_mul_step a n (a ^ (j + 1)) (j + 1) rfl
      rw [show j + 1 + 1 = (j + 1) + 1 from rfl]
      rw [ih (j + 1) (a ^ (j + 1) % n) hres']
      constructor
      · intro h k hk1 hk2
        rcases Nat.eq_or_lt_of_le (by omega : j + 1 ≤ k) with he | he
        · rw [← he]
          exact h1
        · exact h k (by omega) he
      · intro h k hk1 hk2
        exact h k (by omega) (by omega)

/-- Explicit-bound specification of `find_order`: `some s` is returned
exactly when `s` is the least positive exponent with `a ^ s % n = 1` and
it does not exceed the bound. -/
lemma find_order_some_iff (a n b s : Nat) :
    find_order a n (some b) = some s ↔
      (1 ≤ s ∧ s ≤ b ∧ a ^ s % n = 1 ∧ ∀ k, k < s → 0 < k → a ^ k % n ≠ 1) := by
  have h := findOrderGo_some_iff a n b 0 1 s (by simp [pow_one])
  simp only [find_order, Option.getD_some]
  constructor
  · intro hh
    obtain ⟨g1, g2, g3, g4⟩ := h.mp hh
    exact ⟨g1, by omega, g3, fun k hk1 hk2 => g4 k hk1 hk2⟩
  · rintro ⟨g1, g2, g3, g4⟩
    exact h.mpr ⟨g1, by omega, g3, fun k hk1 hk2 => g4 k hk1 hk2⟩

/-- Explicit-bound specification of `find_order` returning `none`: no
positive exponent up to the bound has power 1 mod `n`. -/
lemma find_order_none_iff (a n b : Nat) :
    find_order a n (some b) = none ↔
      ∀ k, k ≤ b → 0 < k → a ^ k % n ≠ 1 := by
  have h := findOrderGo_none_iff a n b 0 1 (by simp [pow_one])
  simp only [find_order, Option.getD_some]
  constructor
  · intro hh k hk1 hk2
    exact h.mp hh k (by omega) hk2
  · intro hh
    exact h.mpr fun k hk1 hk2 => hh k (by omega) hk2

/-- The Python default bound (`max_order=None`) is the modulus itself. -/
lemma find_order_default (a n : Nat) : find_order a n none = find_order a n (some n) := rfl

/-- Embedding of `round(n ** (1 / k))` (source line 61), idealized to exact
real arithmetic: the integer nearest to the real k-th root of `n`.  With
`a` the floor of the root, the root rounds down exactly when it is below
`a + 1/2`, that is when `2^k * n < (2*a + 1)^k`; a tie is impossible since
`2^k * n` is even (`k ≥ 2` at every call site) and `(2*a + 1)^k` is odd. -/
def kthRootRound (n k : Nat) : Nat :=
  let a := Nat.findGreatest (fun b => b ^ k ≤ n) n
  if 2 ^ k * n < (2 * a + 1) ^ k then a else a + 1

/-- On an exact k-th power the rounded k-th root recovers the base. -/
lemma kthRootRound_pow (c k : Nat) (hk : 1 ≤ k) :
    kthRootRound (c ^ k) k = c := by
  have hroot : Nat.findGreatest (fun b => b ^ k ≤ c ^ k) (c ^ k) = c := by
    rw [Nat.findGreatest_eq_iff]
    refine ⟨Nat.le_self_pow (by omega) c, fun _ => le_refl _, ?_⟩
    intro m hm hmle hP
    exact absurd hP (by simpa using Nat.pow_lt_pow_left hm (by omega : k ≠ 0))
  simp only [kthRootRound, hroot]
  rw [if_pos]
  calc 2 ^ k * c ^ k = (2 * c) ^ k := (mul_pow 2 c k).symm
    _ < (2 * c + 1) ^ k := Nat.pow_lt_pow_left (by omega) (by omega)

/-- Loop of the perfect-power check (source lines 60-66): for each
exponent `k` in `range(2, int(math.log2(n)) + 1)` (here: `cnt` remaining
exponents starting at `k`), compute the rounded k-th root `a` and return
`(a, a^(k-1))` if the exact verification `a ** k == n` succeeds. -/
def ppLoop (n : Nat) : Nat → Nat → Option (Nat × Nat)
  | _, 0 => none
  | k, cnt + 1 =>
    if (kthRootRound n k) ^ k = n then some (kthRootRound n k, (kthRootRound n k) ^ (k - 1))
    else ppLoop n (k + 1) cnt

/-- Embedding of `int(math.log2(n))` (source line 60), idealized to exact
real arithmetic: the floor base-2 logarithm, computed as the greatest
`k ≤ n` with `2 ^ k ≤ n`. -/
def intLog2 (n : Nat) : Nat :=
  Nat.findGreatest (fun k => 2 ^ k ≤ n) n

/-- Any exponent whose power of two is below `n` is at most `intLog2 n`. -/
lemma le_intLog2 {k n : Nat} (h : 2 ^ k ≤ n) : k ≤ intLog2 n := by
  have hkn : k ≤ n := le_trans (Nat.le_of_lt (Nat.lt_two_pow k)) h
  exact Nat.le_findGreatest hkn h

/-- Perfect-power check of `shors_algorithm` (source lines 59-66): scan
exponents `k = 2 .. int(math.log2(n))` in increasing order. -/
def perfectPower (n : Nat) : Option (Nat × Nat) :=
  ppLoop n 2 (intLog2 n - 1)

/-- Any answer of the perfect-power loop is an exact factorization of `n`
as `(a, a^(K-1))` with `a ^ K = n` for some scanned exponent `K`. -/
lemma ppLoop_some (n : Nat) :
    ∀ (cnt k p q : Nat), ppLoop n k cnt = some (p, q) →
      ∃ K, k ≤ K ∧ K < k + cnt ∧ p ^ K = n ∧ q = p ^ (K - 1) := by
  intro cnt
  induction cnt with
  | zero =>
    intro k p q h
    exact absurd h (by simp [ppLoop])
  | succ cnt ih =>
    intro k p q h
    by_cases hk : (kthRootRound n k) ^ k = n
    · rw [ppLoop, if_pos hk] at h
      obtain ⟨hp, hq⟩ := Prod.mk.injEq .. ▸ Option.some.inj h
      exact ⟨k, le_refl _, by omega, hp ▸ hk, by rw [← hp, ← hq]⟩
    · rw [ppLoop, if_neg hk] at h
      obtain ⟨K, h1, h2, h3, h4⟩ := ih (k + 1) p q h
      exact ⟨K, by omega, by omega, h3, h4⟩

/-- The perfect-power loop returns the hit at the first scanned exponent
whose rounded root passes the exact verification. -/
lemma ppLoop_first (n : Nat) :
    ∀ (cnt k K : Nat), k ≤ K → K < k + cnt →
      (kthRootRound n K) ^ K = n →
      (∀ j, k ≤ j → j < K → (kthRootRound n j) ^ j ≠ n) →
      ppLoop n k cnt = some (kthRootRound n K, (kthRootRound n K) ^ (K - 1)) := by
  intro cnt
  induction cnt with
  | zero =>
    intro k K h1 h2
    exfalso
    omega
  | succ cnt ih =>
    intro k K h1 h2 hK hmin
    rcases Nat.eq_or_lt_of_le h1 with rfl | hlt
    · rw [ppLoop, if_pos hK]
    · have hne : (kthRootRound n k) ^ k ≠ n := hmin k (le_refl _) hlt
      rw [ppLoop, if_neg hne]
      exact ih (k + 1) K hlt (by omega) hK (fun j hj1 hj2 => hmin j (by omega) hj2)

/-- The fixed attempt bound of the sampling loop (source line 73:
`max_attempts = 10`, a local constant of `shors_algorithm`). -/
def max_attempts : Nat := 10

/-- Coprime-base sampling loop (source lines 74-88): `cnt` remaining
iterations starting at attempt index `i`; each iteration draws `a = d i`
(`random.randint(2, n - 1)` in the source), computes `g = gcd(a, n)` and
returns the factor pair `(g, n / g)` as soon as `g ≠ 1`. -/
def sampleLoop (n : Nat) (d : Nat → Nat) : Nat → Nat → Option (Nat × Nat)
  | _, 0 => none
  | i, cnt + 1 =>
    if Nat.gcd (d i) n ≠ 1 then some (Nat.gcd (d i) n, n / Nat.gcd (d i) n)
    else sampleLoop n d (i + 1) cnt

/-- Any answer of the sampling loop is `(g, n / g)` for the gcd `g ≠ 1` of
one of the examined draws with `n`. -/
lemma sampleLoop_some (n : Nat) (d : Nat → Nat) :
    ∀ (cnt i p q : Nat), sampleLoop n d i cnt = some (p, q) →
      ∃ j, i ≤ j ∧ j < i + cnt ∧ Nat.gcd (d j) n ≠ 1 ∧
        p = Nat.gcd (d j) n ∧ q = n / Nat.gcd (d j) n := by
  intro cnt
  induction cnt with
  | zero =>
    intro i p q h
    exact absurd h (by simp [sampleLoop])
  | succ cnt ih =>
    intro i p q h
    by_cases hg : Nat.gcd (d i) n ≠ 1
    · rw [sampleLoop, if_pos hg] at h
      obtain ⟨hp, hq⟩ := Prod.mk.injEq .. ▸ Option.some.inj h
      exact ⟨i, le_refl _, by omega, hg, hp.symm, hq.symm⟩
    · rw [sampleLoop, if_neg hg] at h
      obtain ⟨j, h1, h2, h3, h4, h5⟩ := ih (i + 1) p q h
      exact ⟨j, by omega, by omega, h3, h4, h5⟩

/-- The sampling loop finds nothing exactly when every examined draw is
coprime with `n`. -/
lemma sampleLoop_none_iff (n : Nat) (d : Nat → Nat) :
    ∀ (cnt i : Nat), sampleLoop n d i cnt = none ↔
      ∀ j, i ≤ j → j < i + cnt → Nat.gcd (d j) n = 1 := by
  intro cnt
  induction cnt with
  | zero =>
    intro i
    constructor
    · intro _ j h1 h2
      exfalso
      omega
    · intro _
      rfl
  | succ cnt ih =>
    intro i
    by_cases hg : Nat.gcd (d i) n ≠ 1
    · rw [sampleLoop, if_pos hg]
      constructor
      · intro h
        exact absurd h (by simp)
      · intro h
        exact absurd (h i (le_refl _) (by omega)) hg
    · rw [sampleLoop, if_neg hg]
      rw [ih (i + 1)]
      push_neg at hg
      constructor
      · intro h j h1 h2
        rcases Nat.eq_or_lt_of_le h1 with rfl | hlt
        · exact hg
        · exact h j hlt (by omega)
      · intro h j h1 h2
        exact h j (by omega) (by omega)

/-- The sampling loop only reads the draws it examines. -/
lemma sampleLoop_congr (n : Nat) (d1 d2 : Nat → Nat) :
    ∀ (cnt i : Nat), (∀ j, i ≤ j → j < i + cnt → d1 j = d2 j) →
      sampleLoop n d1 i cnt = sampleLoop n d2 i cnt := by
  intro cnt
  induction cnt with
  | zero =>
    intro i _
    rfl
  | succ cnt ih =>
    intro i h
    have hi : d1 i = d2 i := h i (le_refl i) (by omega)
    rw [sampleLoop, sampleLoop, hi]
    split
    · rfl
    · exact ih (i + 1) (fun j hj1 hj2 => h j (by omega) (by omega))

/-- Outcome of one call body of `shors_algorithm`, before the recursion is
resolved: a returned factor pair, a returned `None`, or a recursive retry
(`return shors_algorithm(n, verbose=False)`, source lines 113/129/165). -/
inductive ShorsOutcome where
  | success : Nat → Nat → ShorsOutcome
  | failure : ShorsOutcome
  | retry : ShorsOutcome
deriving DecidableEq, Repr

/-- Factor-extraction step (source lines 119-165) applied to
`x = pow(a, r // 2, n)`: the degenerate check `x == n - 1`, the two gcd
candidates `gcd(x - 1, n)` and `gcd(x + 1, n)` (taken over `Int`, exactly
as Python's `math.gcd` on a possibly negative first argument), and the
final retry when both candidates are trivial. -/
def gcdStep (n x : Nat) : ShorsOutcome :=
  if x = n - 1 then .retry
  else
    if 1 < Int.gcd ((x : Int) - 1) (n : Int) ∧ Int.gcd ((x : Int) - 1) (n : Int) < n then
      .success (Int.gcd ((x : Int) - 1) (n : Int)) (n / Int.gcd ((x : Int) - 1) (n : Int))
    else if 1 < Int.gcd ((x : Int) + 1) (n : Int) ∧ Int.gcd ((x : Int) + 1) (n : Int) < n then
      .success (Int.gcd ((x : Int) + 1) (n : Int)) (n / Int.gcd ((x : Int) + 1) (n : Int))
    else .retry

/-- Order-finding tail of the body (source lines 97-165) for the base `a`
that survived the sampling loop: `r = find_order(a, n)`, failure when no
order is found, retry when `r` is odd, otherwise the factor extraction on
`x = a^(r/2) mod n`. -/
def orderStep (n a : Nat) : ShorsOutcome :=
  match find_order a n none with
  | none => .failure
  | some r =>
    if r % 2 = 1 then .retry
    else gcdStep n (a ^ (r / 2) % n)

/-- One call body of `shors_algorithm` (source lines 29-165) on the draw
stream `d`: even check, perfect-power check, sampling loop, then the
order-finding tail on the last draw (the Python loop variable `a` holds
`d (max_attempts - 1)` after the loop falls through). -/
def shorsBody (n : Nat) (d : Nat → Nat) : ShorsOutcome :=
  if n % 2 = 0 then .success 2 (n / 2)
  else
    match perfectPower n with
    | some (p, q) => .success p q
    | none =>
      match sampleLoop n d 0 max_attempts with
      | some (p, q) => .success p q
      | none => orderStep n (d (max_attempts - 1))

/-- Fuel-bounded embedding of the full recursive `shors_algorithm`
(result component only; narration is carried by `shors_algorithm` below).
`none` means the fuel ran out while the source would still be recursing;
`some none` is the source's `None`; `some (some (p, q))` is a returned
pair.  A retry consumes `max_attempts` draws, hence the stream shift. -/
def shorsRec : Nat → Nat → (Nat → Nat) → Option (Option (Nat × Nat))
  | 0, _, _ => none
  | fuel + 1, n, d =>
    match shorsBody n d with
    | .success p q => some (some (p, q))
    | .failure => some none
    | .retry => shorsRec fuel n (fun i => d (i + max_attempts))

/-- The draw stream seen by the call at retry depth `j`. -/
def shiftDraws (d : Nat → Nat) (j : Nat) : Nat → Nat :=
  fun i => d (i + max_attempts * j)

/-- Sampling loop with its narration (source lines 74-88 with the prints
of lines 80-87): same control flow as `sampleLoop`, additionally
collecting the lines printed when `verbose` is true. -/
def sampleLoopV (verbose : Bool) (n : Nat) (d : Nat → Nat) :
    Nat → Nat → Option (Nat × Nat) × List String
  | _, 0 => (none, [])
  | i, cnt + 1 =>
    let line := if verbose then
        ["  Attempt " ++ toString (i + 1) ++ ": a = " ++ toString (d i) ++
          ", gcd = " ++ toString (Nat.gcd (d i) n)]
      else []
    if Nat.gcd (d i) n ≠ 1 then
      (some (Nat.gcd (d i) n, n / Nat.gcd (d i) n),
        line ++ (if verbose then ["Found factor: " ++ toString (Nat.gcd (d i) n)] else []))
    else
      let rest := sampleLoopV verbose n d (i + 1) cnt
      (rest.1, line ++ rest.2)

/-- The narration does not change what the sampling loop returns. -/
lemma sampleLoopV_fst (v : Bool) (n : Nat) (d : Nat → Nat) :
    ∀ (cnt i : Nat), (sampleLoopV v n d i cnt).1 = sampleLoop n d i cnt := by
  intro cnt
  induction cnt with
  | zero =>
    intro i
    rfl
  | succ cnt ih =>
    intro i
    rw [sampleLoopV, sampleLoop]
    split
    · rfl
    · exact ih (i + 1)

/-- Factor-extraction step with its narration (source lines 119-165). -/
def gcdStepV (verbose : Bool) (n x : Nat) : ShorsOutcome × List String :=
  let l0 := if verbose then ["  x = " ++ toString x] else []
  if x = n - 1 then
    (.retry, l0 ++ (if verbose then ["x = n - 1, trying another a"] else []))
  else
    let l1 := l0 ++ (if verbose then
        ["  gcd(x - 1, n) = " ++ toString (Int.gcd ((x : Int) - 1) (n : Int)),
          "  gcd(x + 1, n) = " ++ toString (Int.gcd ((x : Int) + 1) (n : Int))]
      else [])
    if 1 < Int.gcd ((x : Int) - 1) (n : Int) ∧ Int.gcd ((x : Int) - 1) (n : Int) < n then
      (.success (Int.gcd ((x : Int) - 1) (n : Int)) (n / Int.gcd ((x : Int) - 1) (n : Int)),
        l1 ++ (if verbose then ["Successfully factored"] else []))
    else if 1 < Int.gcd ((x : Int) + 1) (n : Int) ∧ Int.gcd ((x : Int) + 1) (n : Int) < n then
      (.success (Int.gcd ((x : Int) + 1) (n : Int)) (n / Int.gcd ((x : Int) + 1) (n : Int)),
        l1 ++ (if verbose then ["Successfully factored"] else []))
    else
      (.retry, l1 ++ (if verbose then ["Could not find nontrivial factors, trying another a"] else []))

/-- The narration does not change what the factor-extraction step returns. -/
lemma gcdStepV_fst (v : Bool) (n x : Nat) : (gcdStepV v n x).1 = gcdStep n x := by
  by_cases h0 : x = n - 1
  · simp [gcdStepV, gcdStep, h0]
  · by_cases h1 : 1 < Int.gcd ((x : Int) - 1) (n : Int) ∧ Int.gcd ((x : Int) - 1) (n : Int) < n
    · simp [gcdStepV, gcdStep, h0, h1]
    · by_cases h2 : 1 < Int.gcd ((x : Int) + 1) (n : Int) ∧ Int.gcd ((x : Int) + 1) (n : Int) < n
      · simp [gcdStepV, gcdStep, h0, h1, h2]
      · simp [gcdStepV, gcdStep, h0, h1, h2]

/-- Order-finding tail with its narration (source lines 90-165). -/
def orderStepV (verbose : Bool) (n a : Nat) : ShorsOutcome × List String :=
  let l0 := if verbose then ["Step 3: Find the period r (order of a modulo n)"] else []
  match find_order a n none with
  | none => (.failure, l0 ++ (if verbose then ["Could not find order"] else []))
  | some r =>
    let l1 := l0 ++ (if verbose then ["Found order: r = " ++ toString r] else [])
    if r % 2 = 1 then
      (.retry, l1 ++ (if verbose then ["Order is odd, trying another a"] else []))
    else
      let rest := gcdStepV verbose n (a ^ (r / 2) % n)
      (rest.1, l1 ++ (if verbose then ["Order is even"] else []) ++ rest.2)

/-- The narration does not change what the order-finding tail returns. -/
lemma orderStepV_fst (v : Bool) (n a : Nat) : (orderStepV v n a).1 = orderStep n a := by
  rw [orderStepV, orderStep]
  rcases find_order a n none with - | r
  · rfl
  · simp only
    split
    · rfl
    · exact gcdStepV_fst v n (a ^ (r / 2) % n)

/-- One call body of `shors_algorithm` with its narration and the
`verbose` flag (source lines 29-165, prints included). -/
def shorsBodyV (verbose : Bool) (n : Nat) (d : Nat → Nat) : ShorsOutcome × List String :=
  let header := if verbose then
      ["Shors Algorithm - Classical Simulation", "Factoring: " ++ toString n]
    else []
  if n % 2 = 0 then
    (.success 2 (n / 2),
      header ++ (if verbose then ["Number is even", "  Factors: 2 x " ++ toString (n / 2)] else []))
  else
    let l1 := header ++ (if verbose then ["Step 1: Check if n is a perfect power"] else [])
    match perfectPower n with
    | some (p, q) =>
      (.success p q,
        l1 ++ (if verbose then ["  Factors: " ++ toString p ++ " x " ++ toString q] else []))
    | none =>
      let l2 := l1 ++ (if verbose then
          ["Not a perfect power", "Step 2: Find a random number a where gcd(a, n) = 1"]
        else [])
      let samp := sampleLoopV verbose n d 0 max_attempts
      match samp.1 with
      | some (p, q) => (.success p q, l2 ++ samp.2)
      | none =>
        let l3 := l2 ++ samp.2 ++ (if verbose then ["Could not find factor via gcd"] else [])
        let rest := orderStepV verbose n (d (max_attempts - 1))
        (rest.1, l3 ++ rest.2)

/-- The narration and the `verbose` flag do not change what one call body
returns. -/
lemma shorsBodyV_fst (v : Bool) (n : Nat) (d : Nat → Nat) :
    (shorsBodyV v n d).1 = shorsBody n d := by
  rw [shorsBodyV, shorsBody]
  split
  · rfl
  · rcases perfectPower n with - | ⟨p, q⟩
    · simp only
      rw [← sampleLoopV_fst v n d max_attempts 0]
      rcases hs : (sampleLoopV v n d 0 max_attempts).1 with - | ⟨p, q⟩
      · simp only
        exact orderStepV_fst v n (d (max_attempts - 1))
      · rfl
    · rfl

/-- Full embedding of `shors_algorithm(n, verbose)` (source lines 29-165):
fuel-bounded recursion carrying the result and the accumulated narration.
Recursive retries pass `verbose=False` (source lines 113/129/165). -/
def shors_algorithm : Nat → Bool → Nat → (Nat → Nat) → Option (Option (Nat × Nat)) × List String
  | 0, _, _, _ => (none, [])
  | fuel + 1, verbose, n, d =>
    match shorsBodyV verbose n d with
    | (.success p q, log) => (some (some (p, q)), log)
    | (.failure, log) => (some none, log)
    | (.retry, log) =>
      let rest := shors_algorithm fuel false n (fun i => d (i + max_attempts))
      (rest.1, log ++ rest.2)

/-- The result component of `shors_algorithm` is exactly `shorsRec`, for
either value of the `verbose` flag. -/
lemma shors_algorithm_fst :
    ∀ (fuel : Nat) (v : Bool) (n : Nat) (d : Nat → Nat),
      (shors_algorithm fuel v n d).1 = shorsRec fuel n d := by
  intro fuel
  induction fuel with
  | zero =>
    intro v n d
    rfl
  | succ fuel ih =>
    intro v n d
    have hb := shorsBodyV_fst v n d
    rcases hbv : shorsBodyV v n d with ⟨o, log⟩
    rw [hbv] at hb
    simp only at hb
    rcases o with ⟨p, q⟩ | - | -
    · simp [shors_algorithm, shorsRec, hbv, ← hb]
    · simp [shors_algorithm, shorsRec, hbv, ← hb]
    · simp only [shors_algorithm, shorsRec, hbv, ← hb]
      exact ih false n (fun i => d (i + max_attempts))

/-- A nontrivial divisor yields a verified factor pair: the cofactor is
also strictly between 1 and `n`. -/
lemma factor_pair_ok {n g : Nat} (hdvd : g ∣ n) (h1 : 1 < g) (h2 : g < n) :
    g * (n / g) = n ∧ 1 < n / g ∧ n / g < n := by
  have hg0 : 0 < g := by omega
  have hn0 : 0 < n := by omega
  refine ⟨Nat.mul_div_cancel' hdvd, ?_, Nat.div_lt_self hn0 h1⟩
  obtain ⟨t, rfl⟩ := hdvd
  rw [Nat.mul_div_cancel_left t hg0]
  match t with
  | 0 => simp at hn0
  | 1 => simp at h2
  | t + 2 => omega

/-- Bounds for a factor pair whose two components are at least 2. -/
lemma pair_bounds {p q n : Nat} (hp : 2 ≤ p) (hq : 2 ≤ q) (hpq : p * q = n) :
    p * q = n ∧ 1 < p ∧ p < n ∧ 1 < q ∧ q < n := by
  subst hpq
  have h1 : p * 2 ≤ p * q := Nat.mul_le_mul_left p hq
  have h2 : 2 * q ≤ p * q := Nat.mul_le_mul_right q hp
  omega

/-- A successful factor-extraction step returns a verified nontrivial
factor pair of `n`. -/
lemma gcdStep_success {n x p q : Nat}
    (h : gcdStep n x = .success p q) :
    p * q = n ∧ 1 < p ∧ p < n ∧ 1 < q ∧ q < n := by
  rw [gcdStep] at h
  split at h
  · exact absurd h (by simp)
  · split at h
    · next hg =>
      obtain ⟨hp, hq⟩ := ShorsOutcome.success.inj h
      subst hp hq
      have hdvd : Int.gcd ((x : Int) - 1) (n : Int) ∣ n :=
        Int.natCast_dvd_natCast.mp (Int.gcd_dvd_right)
      obtain ⟨e1, e2, e3⟩ := factor_pair_ok hdvd hg.1 hg.2
      exact ⟨e1, hg.1, hg.2, e2, e3⟩
    · split at h
      · next hg =>
        obtain ⟨hp, hq⟩ := ShorsOutcome.success.inj h
        subst hp hq
        have hdvd : Int.gcd ((x : Int) + 1) (n : Int) ∣ n :=
          Int.natCast_dvd_natCast.mp (Int.gcd_dvd_right)
        obtain ⟨e1, e2, e3⟩ := factor_pair_ok hdvd hg.1 hg.2
        exact ⟨e1, hg.1, hg.2, e2, e3⟩
      · exact absurd h (by simp)

/-- A successful order-finding tail returns a verified nontrivial factor
pair of `n`. -/
lemma orderStep_success {n a p q : Nat}
    (h : orderStep n a = .success p q) :
    p * q = n ∧ 1 < p ∧ p < n ∧ 1 < q ∧ q < n := by
  rw [orderStep] at h
  split at h
  · exact absurd h (by simp)
  · split at h
    · exact absurd h (by simp)
    · exact gcdStep_success h

/-- The factor-extraction step never produces the failure outcome. -/
lemma gcdStep_ne_failure (n x : Nat) : gcdStep n x ≠ .failure := by
  rw [gcdStep]
  split
  · simp
  · split
    · simp
    · split
      · simp
      · simp

/-- The order-finding tail fails exactly when `find_order` (with the
default bound `n`) finds no order. -/
lemma orderStep_failure_iff (n a : Nat) :
    orderStep n a = .failure ↔ find_order a n none = none := by
  rw [orderStep]
  rcases h : find_order a n none with - | r
  · simp
  · simp only
    constructor
    · intro hh
      split at hh
      · exact absurd hh (by simp)
      · exact absurd hh (gcdStep_ne_failure n _)
    · intro hh
      exact absurd hh (by simp)

/-- Any successful body outcome is a verified nontrivial factor pair,
provided `n ≥ 3` and every draw lies in the `randint(2, n - 1)` range. -/
lemma shorsBody_success_sound {n p q : Nat} {d : Nat → Nat} (hn : 3 ≤ n)
    (hd : ∀ i, 2 ≤ d i ∧ d i ≤ n - 1)
    (h : shorsBody n d = .success p q) :
    p * q = n ∧ 1 < p ∧ p < n ∧ 1 < q ∧ q < n := by
  rw [shorsBody] at h
  split at h
  · next h2 =>
    obtain ⟨hp, hq⟩ := ShorsOutcome.success.inj h
    subst hp hq
    have h4 : 4 ≤ n := by omega
    have hdvd : 2 ∣ n := Nat.dvd_of_mod_eq_zero h2
    obtain ⟨e1, e2, e3⟩ := factor_pair_ok hdvd (by omega) (by omega)
    exact ⟨e1, by omega, by omega, e2, e3⟩
  · split at h
    · next p1 q1 hpp =>
      obtain ⟨hp, hq⟩ := ShorsOutcome.success.inj h
      subst hp hq
      obtain ⟨K, hK1, hK2, hK3, hK4⟩ :=
        ppLoop_some n (intLog2 n - 1) 2 p1 q1 hpp
      have hp2 : 2 ≤ p1 := by
        by_contra hle
        have : p1 ^ K ≤ 1 ^ K := Nat.pow_le_pow_left (by omega) K
        rw [one_pow] at this
        omega
      have hq2 : 2 ≤ q1 := by
        have hp1 : p1 ^ 1 ≤ p1 ^ (K - 1) := Nat.pow_le_pow_right (by omega) (by omega)
        rw [pow_one] at hp1
        omega
      have hpq : p1 * q1 = n := by
        rw [hK4, ← pow_succ']
        rw [show K - 1 + 1 = K by omega]
        exact hK3
      exact pair_bounds hp2 hq2 hpq
    · split at h
      · next p1 q1 hsl =>
        obtain ⟨hp, hq⟩ := ShorsOutcome.success.inj h
        subst hp hq
        obtain ⟨j, hj1, hj2, hj3, hj4, hj5⟩ :=
          sampleLoop_some n d max_attempts 0 p1 q1 hsl
        obtain ⟨hdj1, hdj2⟩ := hd j
        have hg0 : Nat.gcd (d j) n ≠ 0 := by
          intro h0
          have := Nat.eq_zero_of_gcd_eq_zero_right h0
          omega
        have hgle : Nat.gcd (d j) n ≤ d j :=
          Nat.le_of_dvd (by omega) (Nat.gcd_dvd_left (d j) n)
        obtain ⟨e1, e2, e3⟩ := factor_pair_ok (Nat.gcd_dvd_right (d j) n)
          (by omega) (by omega)
        subst hj4 hj5
        exact ⟨e1, by omega, by omega, e2, e3⟩
      · exact orderStep_success h

/-- The body fails exactly when the even and perfect-power checks pass,
every draw of the sampling loop is coprime with `n`, and `find_order` on
the last draw finds no order. -/
lemma shorsBody_failure_iff (n : Nat) (d : Nat → Nat) :
    shorsBody n d = .failure ↔
      n % 2 ≠ 0 ∧ perfectPower n = none ∧
        sampleLoop n d 0 max_attempts = none ∧
        find_order (d (max_attempts - 1)) n none = none := by
  rw [shorsBody]
  split
  · next h2 =>
    simp [h2]
  · next h2 =>
    rcases hpp : perfectPower n with - | ⟨p, q⟩
    · simp only
      rcases hsl : sampleLoop n d 0 max_attempts with - | ⟨p, q⟩
      · simp only [orderStep_failure_iff]
        tauto
      · simp [h2, hpp, hsl]
    · simp [h2, hpp]

/-- For even `n` the body succeeds immediately with `(2, n / 2)`. -/
lemma shorsBody_even {n : Nat} (d : Nat → Nat) (h : n % 2 = 0) :
    shorsBody n d = .success 2 (n / 2) := by
  rw [shorsBody, if_pos h]

/-- One call body reads at most the first `max_attempts` draws. -/
lemma shorsBody_congr (n : Nat) (d1 d2 : Nat → Nat)
    (h : ∀ i, i < max_attempts → d1 i = d2 i) :
    shorsBody n d1 = shorsBody n d2 := by
  rw [shorsBody, shorsBody,
    sampleLoop_congr n d1 d2 max_attempts 0 (fun j hj1 hj2 => h j (by omega)),
    h (max_attempts - 1) (by simp [max_attempts])]

/-- C1 (counterexample): at the concrete input n = 2 the algorithm
returns `Some((2, 1))` — draws never consulted — and the pair violates
the claimed bounds `1 < p < n` and `1 < q < n` (here p = n and q = 1). -/
theorem shors_C1_counterexample :
    shorsRec 1 2 (fun _ => 2) = some (some (2, 1)) ∧
      ¬(2 * 1 = 2 ∧ 1 < 2 ∧ 2 < 2 ∧ 1 < 1 ∧ 1 < 2) := by
  constructor
  · rfl
  · decide

/-- C1 (amended): for every n ≥ 3, whenever `factorize` returns a pair
`(p, q)` — on any draw stream whose draws lie in the `randint(2, n - 1)`
range — the pair verifies p·q = n, 1 < p < n and 1 < q < n. -/
theorem shors_C1_sound (fuel n p q : Nat) (d : Nat → Nat) (hn : 3 ≤ n)
    (hd : ∀ i, 2 ≤ d i ∧ d i ≤ n - 1)
    (h : shorsRec fuel n d = some (some (p, q))) :
    p * q = n ∧ 1 < p ∧ p < n ∧ 1 < q ∧ q < n := by
  induction fuel generalizing d with
  | zero => exact absurd h (by simp [shorsRec])
  | succ fuel ih =>
    rw [shorsRec] at h
    rcases hb : shorsBody n d with ⟨p1, q1⟩ | - | -
    · rw [hb] at h
      simp only [Option.some.injEq, Prod.mk.injEq] at h
      obtain ⟨hp, hq⟩ := h
      subst hp hq
      exact shorsBody_success_sound hn hd hb
    · rw [hb] at h
      exact absurd h (by simp)
    · rw [hb] at h
      exact ih (fun i => d (i + max_attempts)) (fun i => hd (i + max_attempts)) h

/-- C1 (witness): the amended theorem applied at n = 15 with the constant
draw stream 2, where the run returns `Some((3, 5))`. -/
theorem shors_C1_sound_witness :
    3 * 5 = 15 ∧ 1 < 3 ∧ 3 < 15 ∧ 1 < 5 ∧ 5 < 15 :=
  shors_C1_sound 1 15 3 5 (fun _ => 2) (by omega)
    (fun i => ⟨Nat.le_refl 2, (by decide : (2 : Nat) ≤ 15 - 1)⟩) (by decide)

/-- C5: for every even n ≥ 4 and any draw stream, `factorize(n)` returns
`(2, n/2)` immediately (the even check precedes every other transition
and consults no randomness: the result does not depend on the stream). -/
theorem shors_C5_even (n fuel : Nat) (d : Nat → Nat) (h2 : n % 2 = 0)
    (h4 : 4 ≤ n) (hf : 1 ≤ fuel) :
    shorsRec fuel n d = some (some (2, n / 2)) := by
  obtain ⟨fuel, rfl⟩ : ∃ f, fuel = f + 1 := ⟨fuel - 1, by omega⟩
  rw [shorsRec, shorsBody_even d h2]

/-- C5 (witness): the theorem applied at n = 6 with fuel 1. -/
theorem shors_C5_even_witness :
    shorsRec 1 6 (fun _ => 5) = some (some (2, 3)) :=
  shors_C5_even 6 1 (fun _ => 5) (by decide) (by decide) (by decide)

/-- C10: at the boundary input n = 2 the even check fires (it has no
lower bound on n), so `factorize(2)` returns `Some((2, 1))`, whose second
component is the trivial factor 1. -/
theorem shors_C10_boundary_two (fuel : Nat) (d : Nat → Nat) (hf : 1 ≤ fuel) :
    shorsRec fuel 2 d = some (some (2, 1)) := by
  obtain ⟨fuel, rfl⟩ : ∃ f, fuel = f + 1 := ⟨fuel - 1, by omega⟩
  rw [shorsRec, shorsBody_even d (by decide)]

/-- C10 (witness): the theorem applied with fuel 1 and a constant draw
stream. -/
theorem shors_C10_boundary_two_witness :
    shorsRec 1 2 (fun _ => 0) = some (some (2, 1)) :=
  shors_C10_boundary_two 1 (fun _ => 0) (by decide)

/-- C2: for n ≥ 2, a coprime base a in [1, n-1] and a positive bound,
`find_order` returns the smallest positive r with `a^r mod n = 1` when
such an r within the bound exists, and `None` otherwise. -/
theorem shors_C2_find_order_correct (a n b r : Nat) (hn : 2 ≤ n)
    (ha1 : 1 ≤ a) (ha2 : a ≤ n - 1) (hg : Nat.gcd a n = 1) (hb : 1 ≤ b) :
    ((1 ≤ r ∧ r ≤ b ∧ a ^ r % n = 1 ∧ (∀ k, k < r → 0 < k → a ^ k % n ≠ 1)) →
        find_order a n (some b) = some r) ∧
      ((∀ k, k ≤ b → 0 < k → a ^ k % n ≠ 1) → find_order a n (some b) = none) := by
  constructor
  · intro h
    exact (find_order_some_iff a n b r).mpr h
  · intro h
    exact (find_order_none_iff a n b).mpr h

/-- C2 (witness): the theorem applied at a = 2, n = 5, where the order
is 4: the bound 4 finds it and the bound 3 does not. -/
theorem shors_C2_find_order_correct_witness :
    find_order 2 5 (some 4) = some 4 ∧ find_order 2 5 (some 3) = none :=
  ⟨(shors_C2_find_order_correct 2 5 4 4 (by decide) (by decide) (by decide)
      (by decide) (by decide)).1 (by decide),
    (shors_C2_find_order_correct 2 5 3 4 (by decide) (by decide) (by decide)
      (by decide) (by decide)).2 (by decide)⟩

/-- C6: `find_order` is monotonic in its bound — a result found at a
smaller bound is returned unchanged at any larger bound. -/
theorem shors_C6_monotone (a n b1 b2 r : Nat) (hb : b1 ≤ b2)
    (h : find_order a n (some b1) = some r) :
    find_order a n (some b2) = some r := by
  rw [find_order_some_iff] at h ⊢
  exact ⟨h.1, le_trans h.2.1 hb, h.2.2⟩

/-- C6 (witness): the theorem applied at a = 2, n = 5, bounds 4 and 10. -/
theorem shors_C6_monotone_witness : find_order 2 5 (some 10) = some 4 :=
  shors_C6_monotone 2 5 4 10 4 (by decide) (by decide)

/-- C9: `find_order` is total by construction; whenever it returns
`some r` the result is sound — `1 ≤ r ≤ bound`, `a^r mod n = 1` and no
smaller positive exponent works — without any coprimality precondition,
and when `gcd(a, n) ≠ 1` it returns `None`. -/
theorem shors_C9_sound_without_coprimality (a n b : Nat) (hn : 1 ≤ n) :
    (∀ r, find_order a n (some b) = some r →
        1 ≤ r ∧ r ≤ b ∧ a ^ r % n = 1 ∧ ∀ k, k < r → 0 < k → a ^ k % n ≠ 1) ∧
      (Nat.gcd a n ≠ 1 → find_order a n (some b) = none) := by
  constructor
  · intro r h
    exact (find_order_some_iff a n b r).mp h
  · intro hg
    rw [find_order_none_iff]
    intro k hk hk0 h1
    apply hg
    have hdecomp : a ^ k = n * (a ^ k / n) + 1 := by
      conv_lhs => rw [← Nat.div_add_mod (a ^ k) n]
      rw [h1]
    have hd1 : Nat.gcd a n ∣ a ^ k := dvd_pow (Nat.gcd_dvd_left a n) (by omega)
    have hd2 : Nat.gcd a n ∣ n * (a ^ k / n) :=
      Dvd.dvd.mul_right (Nat.gcd_dvd_right a n) _
    have hone : Nat.gcd a n ∣ 1 := by
      have hsub := Nat.dvd_sub' hd1 hd2
      have heq : a ^ k - n * (a ^ k / n) = 1 := by omega
      rwa [heq] at hsub
    exact Nat.dvd_one.mp hone

/-- C9 (witness): the theorem applied at a = 2, n = 4 (not coprime),
bound 5, where `find_order` indeed returns `None`. -/
theorem shors_C9_sound_without_coprimality_witness :
    find_order 2 4 (some 5) = none :=
  (shors_C9_sound_without_coprimality 2 4 5 (by decide)).2 (by decide)

/-- C7 (counterexample): the sampling bound is the fixed constant
`max_attempts = 10` of the code, not a caller-supplied parameter: at
n = 15 an eleventh draw sharing the factor 3 is never examined (the loop
stops after 10 draws), while the second draw is examined (so a caller
bound of 1 is not honored either). -/
theorem shors_C7_counterexample :
    sampleLoop 15 (fun i => if i < 10 then 2 else 3) 0 max_attempts = none ∧
      Nat.gcd 3 15 ≠ 1 ∧
      sampleLoop 15 (fun i => if i = 1 then 3 else 2) 0 max_attempts = some (3, 5) := by
  refine ⟨by decide, by decide, by decide⟩

/-- C7 (amended): one call body — and in particular its coprime-base
sampling loop — examines at most the first `max_attempts = 10` draws of
the stream, where `max_attempts` is the constant fixed inside
`shors_algorithm` (source line 73). -/
theorem shors_C7_bounded_sampling (n : Nat) (d1 d2 : Nat → Nat)
    (h : ∀ i, i < max_attempts → d1 i = d2 i) :
    shorsBody n d1 = shorsBody n d2 :=
  shorsBody_congr n d1 d2 h

/-- C7 (witness): the amended theorem applied at n = 15 to two streams
agreeing on the first 10 draws and differing afterwards. -/
theorem shors_C7_bounded_sampling_witness :
    shorsBody 15 (fun _ => 2) = shorsBody 15 (fun i => if i < 10 then 2 else 99) :=
  shors_C7_bounded_sampling 15 (fun _ => 2) (fun i => if i < 10 then 2 else 99)
    (fun i hi => by
      have h10 : i < 10 := by simpa [max_attempts] using hi
      simp [h10])

/-- C8: the verbose flag never influences the functional result — for any
fuel, input and draw stream the result component of `shors_algorithm` is
the same for both flag values, and equals the narration-free `shorsRec`,
a deterministic function of the input and the draws alone. -/
theorem shors_C8_verbose_cosmetic (fuel n : Nat) (d : Nat → Nat) (v1 v2 : Bool) :
    (shors_algorithm fuel v1 n d).1 = (shors_algorithm fuel v2 n d).1 ∧
      (shors_algorithm fuel v1 n d).1 = shorsRec fuel n d := by
  rw [shors_algorithm_fst fuel v1 n d, shors_algorithm_fst fuel v2 n d]
  exact ⟨rfl, rfl⟩

/-- C3 (counterexample): n = 16 is a perfect power (16 = 4^2, smallest
valid exponent k = 2), but `factorize(16)` returns (2, 8) through the
even check, which precedes the perfect-power check — not the claimed
(4, 4^(2-1)) = (4, 4). -/
theorem shors_C3_counterexample :
    16 = 4 ^ 2 ∧ 2 ≤ 4 ∧ 2 ≤ 2 ∧
      shorsRec 1 16 (fun _ => 2) = some (some (2, 8)) ∧
      ((2 : Nat), (8 : Nat)) ≠ ((4 : Nat), (4 : Nat) ^ (2 - 1)) := by
  decide

/-- C3 (amended): for every odd perfect power n = a^k (a ≥ 2, k ≥ 2),
`factorize(n)` deterministically returns `(b, b^(j-1))`, where j is the
smallest exponent ≥ 2 for which n is a perfect j-th power and b is the
corresponding root — independent of the draw stream (exponents are
tested in increasing order from 2 to floor(log2 n), the root computed as
the rounded real k-th root and verified by exact exponentiation).  Even
perfect powers are instead caught by the preceding even check. -/
theorem shors_C3_odd_perfect_power (n a k : Nat) (hodd : n % 2 = 1)
    (ha : 2 ≤ a) (hk : 2 ≤ k) (hn : n = a ^ k) :
    ∃ b j, 2 ≤ b ∧ 2 ≤ j ∧ n = b ^ j ∧
      (∀ j', j' < j → 2 ≤ j' → ∀ c, c ^ j' ≠ n) ∧
      ∀ fuel d, 1 ≤ fuel → shorsRec fuel n d = some (some (b, b ^ (j - 1))) := by
  classical
  have hn4 : 4 ≤ n := by
    have h1 : 2 ^ k ≤ a ^ k := Nat.pow_le_pow_left ha k
    have h2 : (4 : Nat) ≤ 2 ^ k := by
      calc (4 : Nat) = 2 ^ 2 := by norm_num
        _ ≤ 2 ^ k := Nat.pow_le_pow_right (by omega) hk
    omega
  have hex : ∃ j, 2 ≤ j ∧ ∃ c, c ^ j = n := ⟨k, hk, a, hn.symm⟩
  obtain ⟨hj2, c, hc⟩ := Nat.find_spec hex
  have hmin : ∀ j', j' < Nat.find hex → ¬(2 ≤ j' ∧ ∃ c, c ^ j' = n) :=
    fun j' hj' => Nat.find_min hex hj'
  have hc2 : 2 ≤ c := by
    by_contra hlt
    have hle : c ^ Nat.find hex ≤ 1 ^ Nat.find hex := Nat.pow_le_pow_left (by omega) _
    rw [one_pow] at hle
    omega
  have hjlog : Nat.find hex ≤ intLog2 n := by
    apply le_intLog2
    calc 2 ^ Nat.find hex ≤ c ^ Nat.find hex := Nat.pow_le_pow_left hc2 _
      _ = n := hc
  have hroot : kthRootRound n (Nat.find hex) = c := by
    have hkr := kthRootRound_pow c (Nat.find hex) (by omega)
    rwa [hc] at hkr
  have hppow : (kthRootRound n (Nat.find hex)) ^ Nat.find hex = n := by
    rw [hroot, hc]
  have hpp : perfectPower n =
      some (kthRootRound n (Nat.find hex), (kthRootRound n (Nat.find hex)) ^ (Nat.find hex - 1)) := by
    apply ppLoop_first n (intLog2 n - 1) 2 (Nat.find hex) hj2 (by omega) hppow
    intro j' hj1 hj2' heq
    exact hmin j' hj2' ⟨hj1, kthRootRound n j', heq⟩
  refine ⟨c, Nat.find hex, hc2, hj2, hc.symm, ?_, ?_⟩
  · intro j' hlt' h2' c' heq
    exact hmin j' hlt' ⟨h2', c', heq⟩
  · intro fuel d hf
    obtain ⟨fuel, rfl⟩ : ∃ f, fuel = f + 1 := ⟨fuel - 1, by omega⟩
    rw [shorsRec, shorsBody, if_neg (by omega), hpp, hroot]

/-- C3 (witness): the amended theorem applied at n = 9 = 3^2 produces
the run result `Some((3, 3))`. -/
theorem shors_C3_odd_perfect_power_witness :
    shorsRec 1 9 (fun _ => 2) = some (some (3, 3)) := by
  obtain ⟨b, j, hb2, hj2, hnbj, hmin, hrec⟩ :=
    shors_C3_odd_perfect_power 9 3 2 (by decide) (by decide) (by decide) (by decide)
  have hj : j = 2 := by
    by_contra hne
    exact hmin 2 (by omega) (le_refl 2) 3 (by decide)
  subst hj
  have h9 : b ^ 2 = 9 := hnbj.symm
  have hb3 : b = 3 := by
    have hle : b ≤ 3 := by
      by_contra hgt
      have h16 : 4 ^ 2 ≤ b ^ 2 := Nat.pow_le_pow_left (by omega) 2
      rw [h9] at h16
      norm_num at h16
    have hge : 3 ≤ b := by
      by_contra hlt
      have h4 : b ^ 2 ≤ 2 ^ 2 := Nat.pow_le_pow_left (by omega) 2
      rw [h9] at h4
      norm_num at h4
    omega
  subst hb3
  have := hrec 1 (fun _ => 2) (le_refl 1)
  simpa using this

/-- C4 (counterexample): at n = 15, with every one of the ten draws equal
to 2 (coprime with 15: sampling exhaustion), the call does not return
`None`: the code proceeds to order-finding on the last draw and returns
the pair (3, 5). -/
theorem shors_C4_counterexample :
    sampleLoop 15 (fun _ => 2) 0 max_attempts = none ∧
      Nat.gcd 2 15 = 1 ∧
      shorsRec 1 15 (fun _ => 2) = some (some (3, 5)) := by
  decide

/-- C4 (amended): `factorize` returns `None` only through the
order-not-found path: whenever the result is `None`, some call in the
retry chain — at a depth `j`, seeing the stream shifted by
`max_attempts · j` — passed the even and perfect-power checks, drew
`max_attempts` bases all coprime with n (the sampling loop does not fail
here but falls through), and then `find_order` on the last draw, with the
default bound n, found no order; no retry follows that failure.  The
odd-order, x = n-1 and trivial-candidates branches only retry. -/
theorem shors_C4_none_source (fuel n : Nat) (d : Nat → Nat)
    (h : shorsRec fuel n d = some none) :
    ∃ j, n % 2 ≠ 0 ∧ perfectPower n = none ∧
      (∀ i, i < max_attempts → Nat.gcd (shiftDraws d j i) n = 1) ∧
      find_order (shiftDraws d j (max_attempts - 1)) n none = none := by
  induction fuel generalizing d with
  | zero => exact absurd h (by simp [shorsRec])
  | succ fuel ih =>
    rw [shorsRec] at h
    rcases hb : shorsBody n d with ⟨p1, q1⟩ | - | -
    · rw [hb] at h
      exact absurd h (by simp)
    · rw [shorsBody_failure_iff] at hb
      obtain ⟨h1, h2, h3, h4⟩ := hb
      refine ⟨0, h1, h2, ?_, ?_⟩
      · intro i hi
        have hg := (sampleLoop_none_iff n d max_attempts 0).mp h3 i (by omega) (by omega)
        simpa [shiftDraws] using hg
      · simpa [shiftDraws] using h4
    · rw [hb] at h
      obtain ⟨j, g1, g2, g3, g4⟩ := ih (fun i => d (i + max_attempts)) h
      refine ⟨j + 1, g1, g2, ?_, ?_⟩
      · intro i hi
        have hg := g3 i hi
        simp only [shiftDraws] at hg ⊢
        rw [show i + max_attempts * (j + 1) = i + max_attempts * j + max_attempts by ring]
        exact hg
      · simp only [shiftDraws] at g4 ⊢
        rw [show max_attempts - 1 + max_attempts * (j + 1) =
          max_attempts - 1 + max_attempts * j + max_attempts by ring]
        exact g4

/-- C4 (witness): the amended theorem applied to a run that does return
`None` (n = 1 with the constant stream 2: every gcd is 1 and no order
exists below the default bound). -/
theorem shors_C4_none_source_witness :
    ∃ j, (1 : Nat) % 2 ≠ 0 ∧ perfectPower 1 = none ∧
      (∀ i, i < max_attempts → Nat.gcd (shiftDraws (fun _ => 2) j i) 1 = 1) ∧
      find_order (shiftDraws (fun _ => 2) j (max_attempts - 1)) 1 none = none :=
  shors_C4_none_source 1 1 (fun _ => 2) (by decide)
